import Mathlib

/-
Verification of the forma geometric relation engine (src/src/forma/forma.cpp).

Modelling conventions:
* C++ `float` is modelled by `ℚ` (exact arithmetic; all the source's
  arithmetic on the inputs we consider is exact in this model).
* `object::Box` (object.hpp) is a structure of four rationals.
* A fence (`std::vector<std::tuple<float,float>>`) is a `List Point`.
* A Boost.Geometry ring/polygon is modelled as its vertex list, traversed
  cyclically; Boost's closing of the ring is the cyclic traversal itself.
* `boost::geometry::correct` on a polygon closes it and reverses the ring
  when its signed area has the wrong sign; composed with the operations the
  source performs afterwards (area, covered_by, within, intersection) only
  the ring's cyclic vertex structure and its point set matter, so `correctRing`
  reverses the list when the signed area is negative.
* `boost::geometry::area` after `correct` is the absolute shoelace area.
* point-in-polygon (`covered_by(point, poly)`) is the boundary-inclusive
  even-odd test `pointInRing` (equal to Boost's winding test on the simple
  polygons the engine is specified for).
* `covered_by(A, B)` for areal A, B is, per Boost's de-9im mask **F**F***,
  "every point of A lies in the closed region of B".
* `within(A, B)` for areal A, B is, per Boost's mask T*F**F***, covered_by
  plus "the interiors intersect".
* `boost::geometry::intersection` of a polygon with the (always rectangular)
  polygon produced by box2polygon is modelled by Sutherland-Hodgman clipping
  of the polygon against the rectangle's four half-planes, which computes the
  same boolean intersection for the geometries involved.
-/

/-- A planar point with rational coordinates, modelling BoostPoint. -/
abbrev Pt := ℚ × ℚ

/-- object::Box from src/src/object.hpp: left, top, right, bottom. -/
structure Box where
  left : ℚ
  top : ℚ
  right : ℚ
  bottom : ℚ
deriving DecidableEq

/-- forma::box_area (forma.cpp:101-106): (right - left) * (bottom - top),
with no clamping of negative widths or heights. -/
def box_area (b : Box) : ℚ :=
  (b.right - b.left) * (b.bottom - b.top)

/-- forma::intersection_box_area (forma.cpp:108-119): analytic axis-aligned
intersection with both dimensions clamped at 0. -/
def intersection_box_area (b1 b2 : Box) : ℚ :=
  let left := max b1.left b2.left
  let top := max b1.top b2.top
  let right := min b1.right b2.right
  let bottom := min b1.bottom b2.bottom
  max 0 (right - left) * max 0 (bottom - top)

/-- forma::box_iou (forma.cpp:121-132): intersection over union, 0 when the
union area is ≤ 0. -/
def box_iou (b1 b2 : Box) : ℚ :=
  let i := intersection_box_area b1 b2
  let u := box_area b1 + box_area b2 - i
  if u ≤ 0 then 0 else i / u

/-- forma::intersection_over_min_box_ratio (forma.cpp:134-143): intersection
over the smaller box area, 0 when that minimum is ≤ 0. -/
def intersection_over_min_box_ratio (b1 b2 : Box) : ℚ :=
  let i := intersection_box_area b1 b2
  let m := min (box_area b1) (box_area b2)
  if m ≤ 0 then 0 else i / m

/-- forma::point_in_box (forma.cpp:359-364): closed range check on both
coordinates. -/
def point_in_box (p : Pt) (b : Box) : Bool :=
  decide (b.left ≤ p.1) && decide (p.1 ≤ b.right) &&
  decide (b.top ≤ p.2) && decide (p.2 ≤ b.bottom)

/-- Consecutive pairs of a list: `pathPairs [a,b,c] = [(a,b),(b,c)]`. -/
def pathPairs (l : List Pt) : List (Pt × Pt) :=
  l.zip l.tail

/-- The list with its last element put in front; `[]` for `[]`. Prepending the
last vertex makes `pathPairs` walk a ring's edges cyclically. -/
def prependLast (l : List Pt) : List Pt :=
  match l.reverse with
  | [] => []
  | y :: _ => y :: l

/-- The edges of a ring, traversed cyclically: for `[v0, v1, v2]` the pairs
`(v2,v0), (v0,v1), (v1,v2)`. This is the closed-ring traversal Boost performs
on a corrected (closed) ring. -/
def ringEdges (l : List Pt) : List (Pt × Pt) :=
  pathPairs (prependLast l)

/-- One shoelace term of the edge from s to e. -/
def cross2 (s e : Pt) : ℚ :=
  s.1 * e.2 - e.1 * s.2

/-- The signed shoelace area of a ring (counterclockwise positive). -/
def signedArea (l : List Pt) : ℚ :=
  ((ringEdges l).map (fun se => cross2 se.1 se.2)).sum / 2

/-- boost::geometry::area applied after boost::geometry::correct: the
absolute shoelace area of the ring. -/
def polyArea (l : List Pt) : ℚ :=
  |signedArea l|

/-- boost::geometry::correct on a ring, up to the closing of the ring (which
the cyclic traversal `ringEdges` performs): the ring is reversed when its
signed area has the wrong orientation sign. -/
def correctRing (l : List Pt) : List Pt :=
  if signedArea l < 0 then l.reverse else l

/-- fence2polygon (forma.cpp:57-74): an empty polygon for fewer than 3
vertices, otherwise the vertices in the given order, corrected. -/
def fence2polygon (fence : List Pt) : List Pt :=
  if fence.length < 3 then [] else correctRing fence

/-- The four-corner ring [(x1,y1),(x2,y1),(x2,y2),(x1,y2)]. -/
def rectRing (x1 x2 y1 y2 : ℚ) : List Pt :=
  [(x1, y1), (x2, y1), (x2, y2), (x1, y2)]

/-- box2polygon (forma.cpp:82-93): corners (left,top), (right,top),
(right,bottom), (left,bottom), corrected. -/
def box2polygon (b : Box) : List Pt :=
  correctRing (rectRing b.left b.right b.top b.bottom)

/-- Whether p lies on the closed segment from s to e: collinear and inside
the segment's bounding box. -/
def onSegB (p : Pt) (s e : Pt) : Bool :=
  decide ((e.1 - s.1) * (p.2 - s.2) = (e.2 - s.2) * (p.1 - s.1)) &&
  decide (min s.1 e.1 ≤ p.1) && decide (p.1 ≤ max s.1 e.1) &&
  decide (min s.2 e.2 ≤ p.2) && decide (p.2 ≤ max s.2 e.2)

/-- Whether the edge from s to e crosses the horizontal ray going right from
p (the standard even-odd crossing rule, symmetric in the edge's endpoints). -/
def crossB (p : Pt) (s e : Pt) : Bool :=
  (decide (s.2 ≤ p.2) != decide (e.2 ≤ p.2)) &&
  decide (p.1 < s.1 + (p.2 - s.2) * (e.1 - s.1) / (e.2 - s.2))

/-- Boundary-inclusive point-in-ring test (covered_by(point, polygon)): the
point is on an edge, or the even-odd crossing count is odd. On the simple
polygons the engine is specified for this agrees with Boost's winding
strategy. -/
def pointInRing (p : Pt) (l : List Pt) : Bool :=
  (ringEdges l).any (fun se => onSegB p se.1 se.2) ||
  ((ringEdges l).countP (fun se => crossB p se.1 se.2)) % 2 == 1

/-- Strict interior test: odd crossing count and not on the boundary. -/
def strictInRing (p : Pt) (l : List Pt) : Bool :=
  !((ringEdges l).any (fun se => onSegB p se.1 se.2)) &&
  ((ringEdges l).countP (fun se => crossB p se.1 se.2)) % 2 == 1

/-- point_in_fence (forma.cpp:257-262): covered_by of the point in the
corrected fence polygon. -/
def point_in_fence (p : Pt) (fence : List Pt) : Bool :=
  pointInRing p (fence2polygon fence)

/-- boost::geometry::covered_by(A, B) for two rings (de-9im mask **F**F***):
no point of A's closed region lies outside B's closed region. -/
def coveredByRing (A B : List Pt) : Prop :=
  ∀ p : Pt, pointInRing p A = true → pointInRing p B = true

/-- box_in_fence (forma.cpp:264-269): covered_by(box2polygon(box),
fence2polygon(fence)). -/
def box_in_fence (b : Box) (fence : List Pt) : Prop :=
  coveredByRing (box2polygon b) (fence2polygon fence)

/-- boost::geometry::within(A, B) for a multi-polygon A in a ring B (de-9im
mask T*F**F***): every point of A's closed region lies in B's closed region,
and the interiors of A and B intersect. -/
def withinMulti (parts : List (List Pt)) (B : List Pt) : Prop :=
  (∀ p : Pt, (∃ r ∈ parts, pointInRing p r = true) → pointInRing p B = true) ∧
  (∃ p : Pt, (∃ r ∈ parts, strictInRing p r = true) ∧ strictInRing p B = true)

/-- mask_in_fence (forma.cpp:271-276): within(mask2polygon(mask),
fence2polygon(fence)). The mask argument is modelled as the list of contour
rings mask2polygon extracts from the raster (contour extraction itself is
OpenCV code outside this repository). -/
def mask_in_fence (parts : List (List Pt)) (fence : List Pt) : Prop :=
  withinMulti parts (fence2polygon fence)

/-- Intersection of the segment from s to e with the vertical line x = m. -/
def interX (m : ℚ) (s e : Pt) : Pt :=
  (m, s.2 + (e.2 - s.2) * (m - s.1) / (e.1 - s.1))

/-- Intersection of the segment from s to e with the horizontal line y = m. -/
def interY (m : ℚ) (s e : Pt) : Pt :=
  (s.1 + (e.1 - s.1) * (m - s.2) / (e.2 - s.2), m)

/-- Sutherland-Hodgman clip of a ring by the half-plane x ≥ m. -/
def clipXGE (m : ℚ) (l : List Pt) : List Pt :=
  (ringEdges l).flatMap fun se =>
    if m ≤ se.2.1 then
      (if m ≤ se.1.1 then [se.2] else [interX m se.1 se.2, se.2])
    else
      (if m ≤ se.1.1 then [interX m se.1 se.2] else [])

/-- Sutherland-Hodgman clip of a ring by the half-plane x ≤ m. -/
def clipXLE (m : ℚ) (l : List Pt) : List Pt :=
  (ringEdges l).flatMap fun se =>
    if se.2.1 ≤ m then
      (if se.1.1 ≤ m then [se.2] else [interX m se.1 se.2, se.2])
    else
      (if se.1.1 ≤ m then [interX m se.1 se.2] else [])

/-- Sutherland-Hodgman clip of a ring by the half-plane y ≥ m. -/
def clipYGE (m : ℚ) (l : List Pt) : List Pt :=
  (ringEdges l).flatMap fun se =>
    if m ≤ se.2.2 then
      (if m ≤ se.1.2 then [se.2] else [interY m se.1 se.2, se.2])
    else
      (if m ≤ se.1.2 then [interY m se.1 se.2] else [])

/-- Sutherland-Hodgman clip of a ring by the half-plane y ≤ m. -/
def clipYLE (m : ℚ) (l : List Pt) : List Pt :=
  (ringEdges l).flatMap fun se =>
    if se.2.2 ≤ m then
      (if se.1.2 ≤ m then [se.2] else [interY m se.1 se.2, se.2])
    else
      (if se.1.2 ≤ m then [interY m se.1 se.2] else [])

/-- boost::geometry::intersection of a ring with box2polygon(b): the region
of box2polygon(b) is the axis-aligned rectangle spanned by the box's corner
coordinates, so the boolean intersection is the ring clipped by that
rectangle's four half-planes. -/
def boxClip (b : Box) (l : List Pt) : List Pt :=
  clipYLE (max b.top b.bottom) (clipYGE (min b.top b.bottom)
    (clipXLE (max b.left b.right) (clipXGE (min b.left b.right) l)))

/-- intersection_box_fence_area (forma.cpp:278-285): area of the boolean
intersection of box2polygon(box) and fence2polygon(fence). -/
def intersection_box_fence_area (b : Box) (fence : List Pt) : ℚ :=
  polyArea (boxClip b (fence2polygon fence))

/-- The fence area the source computes as
boost::geometry::area(fence2polygon(fence)). -/
def fence_area (fence : List Pt) : ℚ :=
  polyArea (fence2polygon fence)

/-- box_fence_iou (forma.cpp:287-298): intersection over union with the
denominator zero-guarded at ≤ 0. -/
def box_fence_iou (b : Box) (fence : List Pt) : ℚ :=
  let i := intersection_box_fence_area b fence
  let u := box_area b + fence_area fence - i
  if u ≤ 0 then 0 else i / u

/-- intersection_over_min_box_fence_ratio (forma.cpp:330-340): intersection
over the smaller area with the denominator zero-guarded at ≤ 0. -/
def intersection_over_min_box_fence_ratio (b : Box) (fence : List Pt) : ℚ :=
  let i := intersection_box_fence_area b fence
  let m := min (box_area b) (fence_area fence)
  if m ≤ 0 then 0 else i / m

/-- Modelled from the spec: the crossing-direction result enum. The analyzer
is declared in the spec (section 4.4) but left unimplemented in the observed
source (section 9), so the enum and the classifier below follow the spec's
words. -/
inductive CrossDirection where
  | NONE
  | IN
  | OUT
  | BOTH
deriving DecidableEq

/-- Modelled from the spec: the IN and OUT events of a trajectory against a
region's boundary-inclusive containment test. For each consecutive pair, an
outside-to-inside transition emits IN and an inside-to-outside transition
emits OUT; same-state pairs emit nothing. -/
def crossingEvents (inside : Pt → Bool) (traj : List Pt) : List CrossDirection :=
  (pathPairs traj).filterMap fun se =>
    if !inside se.1 && inside se.2 then some CrossDirection.IN
    else if inside se.1 && !inside se.2 then some CrossDirection.OUT
    else none

/-- Modelled from the spec: the aggregate classification of a trajectory:
both kinds of event yield BOTH, only IN events yield IN, only OUT events
yield OUT, no event yields NONE. -/
def crossingDirection (inside : Pt → Bool) (traj : List Pt) : CrossDirection :=
  let evs := crossingEvents inside traj
  if CrossDirection.IN ∈ evs then
    (if CrossDirection.OUT ∈ evs then CrossDirection.BOTH else CrossDirection.IN)
  else
    (if CrossDirection.OUT ∈ evs then CrossDirection.OUT else CrossDirection.NONE)

/-- C2: the claim's formula fails on the code: box_area clamps nothing, so a
box with a reversed horizontal bound has area -1 where the claimed formula
max(0,right-left)*max(0,bottom-top) gives 0; the area is negative. -/
theorem C2_counterexample :
    box_area ⟨0, 0, -1, 1⟩ < 0 ∧
    box_area ⟨0, 0, -1, 1⟩ ≠ max 0 ((-1 : ℚ) - 0) * max 0 ((1 : ℚ) - 0) := by
  constructor <;> norm_num [box_area]

/-- C2 (amended): box_area(box) is (right-left)*(bottom-top) with no
clamping; for boxes with left ≤ right and top ≤ bottom this equals
max(0,right-left)*max(0,bottom-top) and is non-negative. -/
theorem C2_amended (b : Box) (h1 : b.left ≤ b.right) (h2 : b.top ≤ b.bottom) :
    box_area b = max 0 (b.right - b.left) * max 0 (b.bottom - b.top) ∧
    0 ≤ box_area b := by
  have hw : (0 : ℚ) ≤ b.right - b.left := by linarith
  have hh : (0 : ℚ) ≤ b.bottom - b.top := by linarith
  constructor
  · rw [box_area, max_eq_right hw, max_eq_right hh]
  · exact mul_nonneg hw hh

/-- C2 witness: the amended statement at box (10,10,30,30). -/
theorem C2_amended_witness :
    box_area ⟨10, 10, 30, 30⟩ = max 0 ((30 : ℚ) - 10) * max 0 ((30 : ℚ) - 10) ∧
    0 ≤ box_area ⟨10, 10, 30, 30⟩ :=
  C2_amended ⟨10, 10, 30, 30⟩ (by norm_num) (by norm_num)

/-- C3: the claim's 1e-6 cutoff fails on the code: the guard in box_iou is
denominator ≤ 0, so a square of side 1/2048 paired with itself has union
area 1/2^22 ≤ 1e-6 yet box_iou returns 1, not 0. -/
theorem C3_counterexample :
    (box_area ⟨0, 0, 1/2048, 1/2048⟩ + box_area ⟨0, 0, 1/2048, 1/2048⟩ -
      intersection_box_area ⟨0, 0, 1/2048, 1/2048⟩ ⟨0, 0, 1/2048, 1/2048⟩
        ≤ 1/1000000) ∧
    box_iou ⟨0, 0, 1/2048, 1/2048⟩ ⟨0, 0, 1/2048, 1/2048⟩ ≠ 0 := by
  constructor <;>
    norm_num [box_iou, box_area, intersection_box_area]

/-- C3 (amended): every modelled ratio returns 0 exactly when its
denominator is ≤ 0 and the plain quotient otherwise (in exact arithmetic the
quotient is always defined); a denominator strictly between 0 and 1e-6 is
not zeroed. -/
theorem C3_amended (b1 b2 : Box) (f : List Pt) :
    (box_area b1 + box_area b2 - intersection_box_area b1 b2 ≤ 0 →
      box_iou b1 b2 = 0) ∧
    (0 < box_area b1 + box_area b2 - intersection_box_area b1 b2 →
      box_iou b1 b2 = intersection_box_area b1 b2 /
        (box_area b1 + box_area b2 - intersection_box_area b1 b2)) ∧
    (min (box_area b1) (box_area b2) ≤ 0 →
      intersection_over_min_box_ratio b1 b2 = 0) ∧
    (0 < min (box_area b1) (box_area b2) →
      intersection_over_min_box_ratio b1 b2 =
        intersection_box_area b1 b2 / min (box_area b1) (box_area b2)) ∧
    (box_area b1 + fence_area f - intersection_box_fence_area b1 f ≤ 0 →
      box_fence_iou b1 f = 0) ∧
    (0 < box_area b1 + fence_area f - intersection_box_fence_area b1 f →
      box_fence_iou b1 f = intersection_box_fence_area b1 f /
        (box_area b1 + fence_area f - intersection_box_fence_area b1 f)) ∧
    (min (box_area b1) (fence_area f) ≤ 0 →
      intersection_over_min_box_fence_ratio b1 f = 0) ∧
    (0 < min (box_area b1) (fence_area f) →
      intersection_over_min_box_fence_ratio b1 f =
        intersection_box_fence_area b1 f / min (box_area b1) (fence_area f)) := by
  unfold box_iou intersection_over_min_box_ratio box_fence_iou
    intersection_over_min_box_fence_ratio
  refine ⟨fun h => ?_, fun h => ?_, fun h => ?_, fun h => ?_,
    fun h => ?_, fun h => ?_, fun h => ?_, fun h => ?_⟩ <;>
    simp only [] <;> [rw [if_pos h]; rw [if_neg (not_le.mpr h)];
      rw [if_pos h]; rw [if_neg (not_le.mpr h)]; rw [if_pos h];
      rw [if_neg (not_le.mpr h)]; rw [if_pos h]; rw [if_neg (not_le.mpr h)]]

/-- C3 witness: boxes (0,0,2,2) and (1,1,3,3) have union area 7 > 0 and
minimum area 4 > 0, and box_iou and the min-ratio are the plain quotients
1/7 and 1/4. -/
theorem C3_amended_witness :
    box_iou ⟨0, 0, 2, 2⟩ ⟨1, 1, 3, 3⟩ = 1/7 ∧
    intersection_over_min_box_ratio ⟨0, 0, 2, 2⟩ ⟨1, 1, 3, 3⟩ = 1/4 := by
  have h := C3_amended ⟨0, 0, 2, 2⟩ ⟨1, 1, 3, 3⟩ []
  constructor
  · rw [h.2.1 (by norm_num [box_area, intersection_box_area])]
    norm_num [box_area, intersection_box_area]
  · rw [h.2.2.2.1 (by norm_num [box_area])]
    norm_num [box_area, intersection_box_area]

/-- C5: the claim fails on the code for point_in_box: the check is a closed
range comparison, so a zero-width box (width 0 is non-positive, hence
degenerate) still reports a point on its degenerate segment as inside. -/
theorem C5_counterexample :
    (Box.mk 5 0 5 10).right - (Box.mk 5 0 5 10).left ≤ 0 ∧
    point_in_box (5, 5) ⟨5, 0, 5, 10⟩ = true := by
  constructor
  · norm_num
  · decide

/-- C5 (amended): point_in_fence is false for every fence with fewer than 3
vertices, and point_in_box is false for every box with strictly negative
width or height; for a box of exactly zero width or height, points on its
degenerate segment still test true. -/
theorem C5_amended :
    (∀ (p : Pt) (f : List Pt), f.length < 3 → point_in_fence p f = false) ∧
    (∀ (p : Pt) (b : Box), b.right < b.left ∨ b.bottom < b.top →
      point_in_box p b = false) := by
  constructor
  · intro p f h
    simp [point_in_fence, fence2polygon, h, pointInRing, ringEdges,
      prependLast, pathPairs]
  · intro p b h
    rcases h with h | h
    · rcases le_or_lt p.1 b.right with h2 | h2
      · have h3 : ¬ (b.left ≤ p.1) := by linarith
        simp [point_in_box, h3]
      · have h3 : ¬ (p.1 ≤ b.right) := not_le.mpr h2
        simp [point_in_box, h3]
    · rcases le_or_lt p.2 b.bottom with h2 | h2
      · have h3 : ¬ (b.top ≤ p.2) := by linarith
        simp [point_in_box, h3]
      · have h3 : ¬ (p.2 ≤ b.bottom) := not_le.mpr h2
        simp [point_in_box, h3]

/-- C5 witness: the amended statement at a 2-vertex fence and a box with a
reversed horizontal bound. -/
theorem C5_amended_witness :
    point_in_fence (1, 1) [(0, 0), (1, 0)] = false ∧
    point_in_box (0, 0) ⟨1, 0, 0, 1⟩ = false :=
  ⟨C5_amended.1 (1, 1) [(0, 0), (1, 0)] (by decide),
   C5_amended.2 (0, 0) ⟨1, 0, 0, 1⟩ (Or.inl (by norm_num))⟩

/-- C9: a trajectory of fewer than 2 points yields NONE, and more generally
a trajectory producing no IN or OUT event between consecutive points yields
NONE, for every boundary-inclusive containment test. -/
theorem C9_short_trajectory (inside : Pt → Bool) (traj : List Pt) :
    (traj.length < 2 → crossingDirection inside traj = CrossDirection.NONE) ∧
    (crossingEvents inside traj = [] →
      crossingDirection inside traj = CrossDirection.NONE) := by
  constructor
  · intro h
    match traj with
    | [] => simp [crossingDirection, crossingEvents, pathPairs]
    | [x] => simp [crossingDirection, crossingEvents, pathPairs]
    | x :: y :: t => simp at h; omega
  · intro h
    simp [crossingDirection, h]

/-- C9 witness: the single-point trajectory [(0,0)] has length 1 < 2 and is
classified NONE. -/
theorem C9_short_trajectory_witness :
    crossingDirection (fun _ => true) [((0 : ℚ), (0 : ℚ))] =
      CrossDirection.NONE :=
  (C9_short_trajectory (fun _ => true) [((0 : ℚ), (0 : ℚ))]).1 (by decide)

/-- The analytic box intersection area is never negative. -/
theorem intersection_box_area_nonneg (b1 b2 : Box) :
    0 ≤ intersection_box_area b1 b2 :=
  mul_nonneg (le_max_left _ _) (le_max_left _ _)

/-- The analytic box intersection area is symmetric. -/
theorem intersection_box_area_comm (b1 b2 : Box) :
    intersection_box_area b1 b2 = intersection_box_area b2 b1 := by
  simp only [intersection_box_area]
  rw [max_comm b1.left, min_comm b1.right, max_comm b1.top, min_comm b1.bottom]

/-- For a well-formed first box, the intersection area is at most its area. -/
theorem intersection_box_area_le_left (b1 b2 : Box)
    (h1 : b1.left ≤ b1.right) (h2 : b1.top ≤ b1.bottom) :
    intersection_box_area b1 b2 ≤ box_area b1 := by
  have hw : max 0 (min b1.right b2.right - max b1.left b2.left) ≤
      b1.right - b1.left := by
    have ha := min_le_left b1.right b2.right
    have hb := le_max_left b1.left b2.left
    apply max_le (by linarith) (by linarith)
  have hh : max 0 (min b1.bottom b2.bottom - max b1.top b2.top) ≤
      b1.bottom - b1.top := by
    have ha := min_le_left b1.bottom b2.bottom
    have hb := le_max_left b1.top b2.top
    apply max_le (by linarith) (by linarith)
  exact mul_le_mul hw hh (le_max_left _ _) (by linarith)

/-- C7: for valid (positive width and height) boxes, box_iou and
intersection_over_min_box_ratio lie in [0,1] and the min-ratio dominates the
IoU. -/
theorem C7_ratio_bounds (b1 b2 : Box)
    (h1 : b1.left < b1.right) (h2 : b1.top < b1.bottom)
    (h3 : b2.left < b2.right) (h4 : b2.top < b2.bottom) :
    0 ≤ box_iou b1 b2 ∧ box_iou b1 b2 ≤ 1 ∧
    0 ≤ intersection_over_min_box_ratio b1 b2 ∧
    intersection_over_min_box_ratio b1 b2 ≤ 1 ∧
    box_iou b1 b2 ≤ intersection_over_min_box_ratio b1 b2 := by
  have hi0 := intersection_box_area_nonneg b1 b2
  have hia1 := intersection_box_area_le_left b1 b2 h1.le h2.le
  have hia2 : intersection_box_area b1 b2 ≤ box_area b2 := by
    rw [intersection_box_area_comm]
    exact intersection_box_area_le_left b2 b1 h3.le h4.le
  have ha1 : 0 < box_area b1 := mul_pos (by linarith) (by linarith)
  have ha2 : 0 < box_area b2 := mul_pos (by linarith) (by linarith)
  have hm : 0 < min (box_area b1) (box_area b2) := lt_min ha1 ha2
  have hu : 0 < box_area b1 + box_area b2 - intersection_box_area b1 b2 := by
    linarith
  have hmu : min (box_area b1) (box_area b2) ≤
      box_area b1 + box_area b2 - intersection_box_area b1 b2 := by
    rcases min_le_iff.mp (le_refl (min (box_area b1) (box_area b2))) with h | h
    · exact le_trans (min_le_left _ _) (by linarith)
    · exact le_trans (min_le_left _ _) (by linarith)
  have him : intersection_box_area b1 b2 ≤ min (box_area b1) (box_area b2) :=
    le_min hia1 hia2
  rw [box_iou, intersection_over_min_box_ratio]
  simp only [if_neg (not_le.mpr hu), if_neg (not_le.mpr hm)]
  refine ⟨div_nonneg hi0 hu.le, ?_, div_nonneg hi0 hm.le, ?_, ?_⟩
  · rw [div_le_one hu]; linarith
  · rw [div_le_one hm]; exact him
  · rw [div_le_div_iff₀ hu hm]
    exact mul_le_mul_of_nonneg_left hmu hi0

/-- C7 witness: boxes (0,0,2,2) and (1,1,3,3) satisfy all five bounds. -/
theorem C7_ratio_bounds_witness :
    0 ≤ box_iou ⟨0, 0, 2, 2⟩ ⟨1, 1, 3, 3⟩ ∧
    box_iou ⟨0, 0, 2, 2⟩ ⟨1, 1, 3, 3⟩ ≤ 1 ∧
    0 ≤ intersection_over_min_box_ratio ⟨0, 0, 2, 2⟩ ⟨1, 1, 3, 3⟩ ∧
    intersection_over_min_box_ratio ⟨0, 0, 2, 2⟩ ⟨1, 1, 3, 3⟩ ≤ 1 ∧
    box_iou ⟨0, 0, 2, 2⟩ ⟨1, 1, 3, 3⟩ ≤
      intersection_over_min_box_ratio ⟨0, 0, 2, 2⟩ ⟨1, 1, 3, 3⟩ :=
  C7_ratio_bounds ⟨0, 0, 2, 2⟩ ⟨1, 1, 3, 3⟩
    (by norm_num) (by norm_num) (by norm_num) (by norm_num)

/-- pathPairs on two or more elements peels off the first pair. -/
theorem pathPairs_cons_cons (a b : Pt) (t : List Pt) :
    pathPairs (a :: b :: t) = (a, b) :: pathPairs (b :: t) := by
  simp [pathPairs]

/-- A nonempty list's prependLast puts some vertex of the list in front. -/
theorem prependLast_cons (x : Pt) (u : List Pt) :
    ∃ y, prependLast (x :: u) = y :: x :: u ∧ y ∈ x :: u := by
  cases h : (x :: u).reverse with
  | nil => exact absurd (List.reverse_eq_nil_iff.mp h) (by simp)
  | cons y ys =>
    refine ⟨y, by simp [prependLast, h], ?_⟩
    have : y ∈ (x :: u).reverse := by rw [h]; exact List.mem_cons_self y ys
    exact List.mem_reverse.mp this

/-- Every element of a list is the target of an edge of `pathPairs (w :: l)`. -/
theorem pathPairs_snd_exists (w : Pt) (l : List Pt) (v : Pt) (hv : v ∈ l) :
    ∃ s, (s, v) ∈ pathPairs (w :: l) := by
  induction l generalizing w with
  | nil => exact absurd hv (List.not_mem_nil v)
  | cons x rest ih =>
    rw [pathPairs_cons_cons]
    rcases List.mem_cons.mp hv with h | h
    · exact ⟨w, by rw [h]; exact List.mem_cons_self _ _⟩
    · obtain ⟨s, hs⟩ := ih x h
      exact ⟨s, List.mem_cons_of_mem _ hs⟩

/-- A point is always on the closed segment that ends at it. -/
theorem onSegB_self_snd (s v : Pt) : onSegB v s v = true := by
  simp only [onSegB, Bool.and_eq_true, decide_eq_true_eq]
  exact ⟨⟨⟨⟨mul_comm _ _, min_le_right _ _⟩, le_max_right _ _⟩,
    min_le_right _ _⟩, le_max_right _ _⟩

/-- Every vertex of a ring is covered by the ring (it lies on the boundary). -/
theorem vertex_pointInRing (l : List Pt) (v : Pt) (hv : v ∈ l) :
    pointInRing v l = true := by
  cases l with
  | nil => exact absurd hv (List.not_mem_nil v)
  | cons x u =>
    obtain ⟨y, hy, -⟩ := prependLast_cons x u
    obtain ⟨s, hs⟩ := pathPairs_snd_exists y (x :: u) v hv
    apply Bool.or_eq_true_iff.mpr
    left
    apply List.any_eq_true.mpr
    refine ⟨(s, v), ?_, onSegB_self_snd s v⟩
    rw [ringEdges, hy]
    exact hs

/-- The box polygon always holds the corner (left, top). -/
theorem corner_mem_box2polygon (b : Box) : (b.left, b.top) ∈ box2polygon b := by
  rw [box2polygon, correctRing]
  split
  · rw [List.mem_reverse]; simp [rectRing]
  · simp [rectRing]

/-- No point is covered by the empty ring. -/
theorem pointInRing_nil (p : Pt) : pointInRing p [] = false := by
  simp [pointInRing, ringEdges, prependLast, pathPairs]

/-- No point is strictly inside the empty ring. -/
theorem strictInRing_nil (p : Pt) : strictInRing p [] = false := by
  simp [strictInRing, ringEdges, prependLast, pathPairs]

/-- C8: a fence with fewer than 3 vertices denotes the empty region: its
polygon's area is 0, no box and no mask is contained in it, and no point is
covered by it. -/
theorem C8_empty_fence (f : List Pt) (h : f.length < 3) :
    fence_area f = 0 ∧
    (∀ b : Box, ¬ box_in_fence b f) ∧
    (∀ parts : List (List Pt), ¬ mask_in_fence parts f) ∧
    (∀ p : Pt, point_in_fence p f = false) := by
  have hf : fence2polygon f = [] := by rw [fence2polygon, if_pos h]
  refine ⟨?_, ?_, ?_, ?_⟩
  · rw [fence_area, hf]
    simp [polyArea, signedArea, ringEdges, prependLast, pathPairs]
  · intro b hb
    have := hb (b.left, b.top)
      (vertex_pointInRing _ _ (corner_mem_box2polygon b))
    rw [hf, pointInRing_nil] at this
    exact Bool.false_ne_true this
  · rintro parts ⟨-, p, -, hstrict⟩
    rw [hf, strictInRing_nil] at hstrict
    exact Bool.false_ne_true hstrict
  · intro p
    rw [point_in_fence, hf, pointInRing_nil]

/-- C8 witness: the 2-vertex fence [(0,0),(1,0)] has area 0, contains
neither the unit box nor the one-part mask of the unit box's ring, and
covers no point. -/
theorem C8_empty_fence_witness :
    fence_area [((0 : ℚ), (0 : ℚ)), (1, 0)] = 0 ∧
    ¬ box_in_fence ⟨0, 0, 1, 1⟩ [((0 : ℚ), (0 : ℚ)), (1, 0)] ∧
    ¬ mask_in_fence [[((0 : ℚ), (0 : ℚ)), (1, 0), (1, 1), (0, 1)]]
      [((0 : ℚ), (0 : ℚ)), (1, 0)] ∧
    point_in_fence (0, 0) [((0 : ℚ), (0 : ℚ)), (1, 0)] = false := by
  have h := C8_empty_fence [((0 : ℚ), (0 : ℚ)), (1, 0)] (by decide)
  exact ⟨h.1, h.2.1 _, h.2.2.1 _, h.2.2.2 _⟩

/-- C1: the claim's iff fails on the code for mask_in_fence: a mask whose
polygon set is empty (an all-background raster yields no contour) vacuously
has every part inside the 50x50 square fence, yet within() demands the
interiors intersect and mask_in_fence is false. -/
theorem C1_counterexample :
    ¬ (mask_in_fence ([] : List (List Pt)) [(0, 0), (50, 0), (50, 50), (0, 50)]
       ↔ ∀ r ∈ ([] : List (List Pt)),
           coveredByRing r (fence2polygon [(0, 0), (50, 0), (50, 50), (0, 50)])) := by
  intro h
  obtain ⟨-, p, ⟨r, hr, -⟩, -⟩ :=
    h.mpr (fun r hr => absurd hr (List.not_mem_nil r))
  exact absurd hr (List.not_mem_nil r)

/-- The first endpoint of a ring edge is a vertex of the ring. -/
theorem ringEdges_fst_mem (l : List Pt) (se : Pt × Pt) (h : se ∈ ringEdges l) :
    se.1 ∈ l := by
  cases l with
  | nil => simp [ringEdges, prependLast, pathPairs] at h
  | cons x u =>
    obtain ⟨y, hy, hmem⟩ := prependLast_cons x u
    rw [ringEdges, hy, pathPairs] at h
    obtain ⟨a, b⟩ := se
    have := (List.of_mem_zip h).1
    rcases List.mem_cons.mp this with h1 | h1
    · rwa [h1]
    · exact h1

/-- The second endpoint of a ring edge is a vertex of the ring. -/
theorem ringEdges_snd_mem (l : List Pt) (se : Pt × Pt) (h : se ∈ ringEdges l) :
    se.2 ∈ l := by
  cases l with
  | nil => simp [ringEdges, prependLast, pathPairs] at h
  | cons x u =>
    obtain ⟨y, hy, -⟩ := prependLast_cons x u
    rw [ringEdges, hy, pathPairs] at h
    obtain ⟨a, b⟩ := se
    exact (List.of_mem_zip h).2

/-- prependLast puts the list's last element in front. -/
theorem prependLast_cons_getLast (x : Pt) (u : List Pt) :
    ∃ y, prependLast (x :: u) = y :: x :: u ∧ (x :: u).getLast? = some y := by
  cases h : (x :: u).reverse with
  | nil => exact absurd (List.reverse_eq_nil_iff.mp h) (by simp)
  | cons y ys =>
    refine ⟨y, by simp [prependLast, h], ?_⟩
    rw [← List.head?_reverse, h, List.head?_cons]

/-- Telescoping sum of g-differences along a path starting at b. -/
theorem pathPairs_telescope (g : Pt → ℚ) (b : Pt) (t : List Pt) :
    ((pathPairs (b :: t)).map (fun se => g se.2 - g se.1)).sum =
      g ((b :: t).getLastD b) - g b := by
  induction t generalizing b with
  | nil => simp [pathPairs]
  | cons x t' ih =>
    rw [pathPairs_cons_cons, List.map_cons, List.sum_cons, ih x]
    simp only [List.getLastD_cons]
    ring

/-- The cyclic telescoping sum along a ring's edges vanishes. -/
theorem ringEdges_telescope (g : Pt → ℚ) (l : List Pt) :
    ((ringEdges l).map (fun se => g se.2 - g se.1)).sum = 0 := by
  cases l with
  | nil => simp [ringEdges, prependLast, pathPairs]
  | cons x u =>
    obtain ⟨y, hy, hlast⟩ := prependLast_cons_getLast x u
    rw [ringEdges, hy, pathPairs_telescope, List.getLastD_cons,
      List.getLastD_eq_getLast?, hlast, Option.getD_some, sub_self]

/-- A ring whose vertices all share the x-coordinate c has signed area 0. -/
theorem signedArea_const_x (c : ℚ) (l : List Pt) (h : ∀ q ∈ l, q.1 = c) :
    signedArea l = 0 := by
  rw [signedArea]
  have heq : ((ringEdges l).map (fun se => cross2 se.1 se.2)).sum =
      ((ringEdges l).map
        (fun se => (fun q : Pt => c * q.2) se.2 -
          (fun q : Pt => c * q.2) se.1)).sum := by
    apply congrArg List.sum
    apply List.map_congr_left
    intro se hse
    have h1 := h se.1 (ringEdges_fst_mem _ _ hse)
    have h2 := h se.2 (ringEdges_snd_mem _ _ hse)
    simp only [cross2, h1, h2]
  rw [heq, ringEdges_telescope (fun q : Pt => c * q.2) l]
  norm_num

/-- A ring whose vertices all share the y-coordinate c has signed area 0. -/
theorem signedArea_const_y (c : ℚ) (l : List Pt) (h : ∀ q ∈ l, q.2 = c) :
    signedArea l = 0 := by
  rw [signedArea]
  have heq : ((ringEdges l).map (fun se => cross2 se.1 se.2)).sum =
      ((ringEdges l).map
        (fun se => (fun q : Pt => -c * q.1) se.2 -
          (fun q : Pt => -c * q.1) se.1)).sum := by
    apply congrArg List.sum
    apply List.map_congr_left
    intro se hse
    have h1 := h se.1 (ringEdges_fst_mem _ _ hse)
    have h2 := h se.2 (ringEdges_snd_mem _ _ hse)
    simp only [cross2, h1, h2]
    ring
  rw [heq, ringEdges_telescope (fun q : Pt => -c * q.1) l]
  norm_num

/-- Points emitted by clipXGE satisfy the half-plane and are old vertices or
lie on the clip line. -/
theorem mem_clipXGE (m : ℚ) (l : List Pt) (q : Pt) (hq : q ∈ clipXGE m l) :
    m ≤ q.1 ∧ (q.1 = m ∨ q ∈ l) := by
  rw [clipXGE, List.mem_flatMap] at hq
  obtain ⟨se, hse, hq⟩ := hq
  split_ifs at hq with h1 h2 h2
  · rw [List.mem_singleton] at hq
    exact hq ▸ ⟨h1, Or.inr (ringEdges_snd_mem _ _ hse)⟩
  · rcases List.mem_cons.mp hq with h | h
    · exact h ▸ ⟨le_refl m, Or.inl rfl⟩
    · rw [List.mem_singleton] at h
      exact h ▸ ⟨h1, Or.inr (ringEdges_snd_mem _ _ hse)⟩
  · rw [List.mem_singleton] at hq
    exact hq ▸ ⟨le_refl m, Or.inl rfl⟩
  · exact absurd hq (List.not_mem_nil q)

/-- Points emitted by clipXLE satisfy the half-plane and are old vertices or
lie on the clip line. -/
theorem mem_clipXLE (m : ℚ) (l : List Pt) (q : Pt) (hq : q ∈ clipXLE m l) :
    q.1 ≤ m ∧ (q.1 = m ∨ q ∈ l) := by
  rw [clipXLE, List.mem_flatMap] at hq
  obtain ⟨se, hse, hq⟩ := hq
  split_ifs at hq with h1 h2 h2
  · rw [List.mem_singleton] at hq
    exact hq ▸ ⟨h1, Or.inr (ringEdges_snd_mem _ _ hse)⟩
  · rcases List.mem_cons.mp hq with h | h
    · exact h ▸ ⟨le_refl m, Or.inl rfl⟩
    · rw [List.mem_singleton] at h
      exact h ▸ ⟨h1, Or.inr (ringEdges_snd_mem _ _ hse)⟩
  · rw [List.mem_singleton] at hq
    exact hq ▸ ⟨le_refl m, Or.inl rfl⟩
  · exact absurd hq (List.not_mem_nil q)

/-- Points emitted by clipYGE satisfy the half-plane and are old vertices or
lie on the clip line. -/
theorem mem_clipYGE (m : ℚ) (l : List Pt) (q : Pt) (hq : q ∈ clipYGE m l) :
    m ≤ q.2 ∧ (q.2 = m ∨ q ∈ l) := by
  rw [clipYGE, List.mem_flatMap] at hq
  obtain ⟨se, hse, hq⟩ := hq
  split_ifs at hq with h1 h2 h2
  · rw [List.mem_singleton] at hq
    exact hq ▸ ⟨h1, Or.inr (ringEdges_snd_mem _ _ hse)⟩
  · rcases List.mem_cons.mp hq with h | h
    · exact h ▸ ⟨le_refl m, Or.inl rfl⟩
    · rw [List.mem_singleton] at h
      exact h ▸ ⟨h1, Or.inr (ringEdges_snd_mem _ _ hse)⟩
  · rw [List.mem_singleton] at hq
    exact hq ▸ ⟨le_refl m, Or.inl rfl⟩
  · exact absurd hq (List.not_mem_nil q)

/-- Points emitted by clipYLE satisfy the half-plane and are old vertices or
lie on the clip line. -/
theorem mem_clipYLE (m : ℚ) (l : List Pt) (q : Pt) (hq : q ∈ clipYLE m l) :
    q.2 ≤ m ∧ (q.2 = m ∨ q ∈ l) := by
  rw [clipYLE, List.mem_flatMap] at hq
  obtain ⟨se, hse, hq⟩ := hq
  split_ifs at hq with h1 h2 h2
  · rw [List.mem_singleton] at hq
    exact hq ▸ ⟨h1, Or.inr (ringEdges_snd_mem _ _ hse)⟩
  · rcases List.mem_cons.mp hq with h | h
    · exact h ▸ ⟨le_refl m, Or.inl rfl⟩
    · rw [List.mem_singleton] at h
      exact h ▸ ⟨h1, Or.inr (ringEdges_snd_mem _ _ hse)⟩
  · rw [List.mem_singleton] at hq
    exact hq ▸ ⟨le_refl m, Or.inl rfl⟩
  · exact absurd hq (List.not_mem_nil q)

/-- clipYGE keeps a constant x-coordinate of all vertices. -/
theorem clipYGE_const_x (m c : ℚ) (l : List Pt) (h : ∀ q ∈ l, q.1 = c) :
    ∀ q ∈ clipYGE m l, q.1 = c := by
  intro q hq
  rw [clipYGE, List.mem_flatMap] at hq
  obtain ⟨se, hse, hq⟩ := hq
  have h1 := h se.1 (ringEdges_fst_mem _ _ hse)
  have h2 := h se.2 (ringEdges_snd_mem _ _ hse)
  split_ifs at hq
  · rw [List.mem_singleton] at hq
    exact hq ▸ h2
  · rcases List.mem_cons.mp hq with hx | hx
    · rw [hx]
      simp [interY, h1, h2]
    · rw [List.mem_singleton] at hx
      exact hx ▸ h2
  · rw [List.mem_singleton] at hq
    rw [hq]
    simp [interY, h1, h2]
  · exact absurd hq (List.not_mem_nil q)

/-- clipYLE keeps a constant x-coordinate of all vertices. -/
theorem clipYLE_const_x (m c : ℚ) (l : List Pt) (h : ∀ q ∈ l, q.1 = c) :
    ∀ q ∈ clipYLE m l, q.1 = c := by
  intro q hq
  rw [clipYLE, List.mem_flatMap] at hq
  obtain ⟨se, hse, hq⟩ := hq
  have h1 := h se.1 (ringEdges_fst_mem _ _ hse)
  have h2 := h se.2 (ringEdges_snd_mem _ _ hse)
  split_ifs at hq
  · rw [List.mem_singleton] at hq
    exact hq ▸ h2
  · rcases List.mem_cons.mp hq with hx | hx
    · rw [hx]
      simp [interY, h1, h2]
    · rw [List.mem_singleton] at hx
      exact hx ▸ h2
  · rw [List.mem_singleton] at hq
    rw [hq]
    simp [interY, h1, h2]
  · exact absurd hq (List.not_mem_nil q)

/-- Clipping by a zero-width vertical strip flattens the ring onto the line
x = left, so the clipped area vanishes. -/
theorem boxClip_zero_width (b : Box) (hc : b.right = b.left) (l : List Pt) :
    polyArea (boxClip b l) = 0 := by
  have hmin : min b.left b.right = b.left := by rw [hc, min_self]
  have hmax : max b.left b.right = b.left := by rw [hc, max_self]
  have hx : ∀ q ∈ clipXLE b.left (clipXGE b.left l), q.1 = b.left := by
    intro q hq
    obtain ⟨hle, hor⟩ := mem_clipXLE _ _ _ hq
    rcases hor with h | h
    · exact h
    · exact le_antisymm hle (mem_clipXGE _ _ _ h).1
  have hx2 := clipYGE_const_x (min b.top b.bottom) b.left _ hx
  have hx3 := clipYLE_const_x (max b.top b.bottom) b.left _ hx2
  rw [boxClip, hmin, hmax, polyArea,
    signedArea_const_x b.left _ hx3, abs_zero]

/-- Clipping by a zero-height horizontal strip flattens the ring onto the
line y = top, so the clipped area vanishes. -/
theorem boxClip_zero_height (b : Box) (hc : b.bottom = b.top) (l : List Pt) :
    polyArea (boxClip b l) = 0 := by
  have hmin : min b.top b.bottom = b.top := by rw [hc, min_self]
  have hmax : max b.top b.bottom = b.top := by rw [hc, max_self]
  have hy : ∀ q ∈ clipYLE b.top (clipYGE b.top
      (clipXLE (max b.left b.right) (clipXGE (min b.left b.right) l))),
      q.2 = b.top := by
    intro q hq
    obtain ⟨hle, hor⟩ := mem_clipYLE _ _ _ hq
    rcases hor with h | h
    · exact h
    · exact le_antisymm hle (mem_clipYGE _ _ _ h).1
  rw [boxClip, hmin, hmax, polyArea, signedArea_const_y b.top _ hy, abs_zero]

/-- C4: the claim fails on the code: a box with reversed horizontal bounds
has non-positive width, but its area (-2)*5 = -10 is not 0, and box2polygon
denotes the rectangle with the bounds swapped, so its intersection with a
large fence has area 10, not 0. -/
theorem C4_counterexample :
    (Box.mk 0 0 (-2) 5).right - (Box.mk 0 0 (-2) 5).left ≤ 0 ∧
    box_area ⟨0, 0, -2, 5⟩ ≠ 0 ∧
    intersection_box_fence_area ⟨0, 0, -2, 5⟩
      [(-10, -10), (10, -10), (10, 10), (-10, 10)] ≠ 0 := by
  refine ⟨by norm_num, by norm_num [box_area], ?_⟩
  have h : intersection_box_fence_area ⟨0, 0, -2, 5⟩
      [(-10, -10), (10, -10), (10, 10), (-10, 10)] = 10 := by
    norm_num [intersection_box_fence_area, boxClip, fence2polygon, correctRing,
      signedArea, ringEdges, prependLast, pathPairs, cross2,
      clipXGE, clipXLE, clipYGE, clipYLE, interX, interY, polyArea]
  rw [h]
  norm_num

/-- C4 (amended): a box with non-positive width or height has empty analytic
box-box intersections; a box with exactly zero width or height additionally
has zero area and empty box-fence intersections (a box with strictly
reversed bounds denotes the rectangle with the bounds swapped and can have
nonzero area and intersections). -/
theorem C4_degenerate_box (b : Box) :
    ((b.right ≤ b.left ∨ b.bottom ≤ b.top) →
      ∀ b2 : Box, intersection_box_area b b2 = 0) ∧
    ((b.right = b.left ∨ b.bottom = b.top) →
      box_area b = 0 ∧ ∀ f : List Pt, intersection_box_fence_area b f = 0) := by
  constructor
  · intro h b2
    rcases h with h | h
    · have hw : min b.right b2.right - max b.left b2.left ≤ 0 := by
        have h1 := min_le_left b.right b2.right
        have h2 := le_max_left b.left b2.left
        linarith
      show max 0 (min b.right b2.right - max b.left b2.left) *
        max 0 (min b.bottom b2.bottom - max b.top b2.top) = 0
      rw [max_eq_left hw, zero_mul]
    · have hh : min b.bottom b2.bottom - max b.top b2.top ≤ 0 := by
        have h1 := min_le_left b.bottom b2.bottom
        have h2 := le_max_left b.top b2.top
        linarith
      show max 0 (min b.right b2.right - max b.left b2.left) *
        max 0 (min b.bottom b2.bottom - max b.top b2.top) = 0
      rw [max_eq_left hh, mul_zero]
  · intro h
    constructor
    · rcases h with h | h
      · rw [box_area, h, sub_self, zero_mul]
      · rw [box_area, h, sub_self, mul_zero]
    · intro f
      rcases h with h | h
      · exact boxClip_zero_width b h (fence2polygon f)
      · exact boxClip_zero_height b h (fence2polygon f)

/-- C4 witness: the zero-width box (0,0,0,5) has zero analytic area, empty
analytic intersection with the unit box, and empty intersection with the
20x20 fence. -/
theorem C4_degenerate_box_witness :
    intersection_box_area ⟨0, 0, 0, 5⟩ ⟨-1, -1, 1, 6⟩ = 0 ∧
    box_area ⟨0, 0, 0, 5⟩ = 0 ∧
    intersection_box_fence_area ⟨0, 0, 0, 5⟩
      [(-10, -10), (10, -10), (10, 10), (-10, 10)] = 0 := by
  have h := C4_degenerate_box ⟨0, 0, 0, 5⟩
  exact ⟨h.1 (Or.inl (by norm_num)) _, (h.2 (Or.inl rfl)).1,
    (h.2 (Or.inl rfl)).2 _⟩

/-- Appending a vertex to a path appends one edge from the old last vertex. -/
theorem pathPairs_append_single (u : List Pt) (a : Pt) :
    pathPairs (u ++ [a]) =
      pathPairs u ++ (u.getLast?.map (fun b => (b, a))).toList := by
  induction u with
  | nil => simp [pathPairs]
  | cons x u' ih =>
    cases u' with
    | nil => simp [pathPairs]
    | cons y u'' =>
      have h1 : (x :: y :: u'') ++ [a] = x :: ((y :: u'') ++ [a]) := by simp
      rw [h1, List.cons_append, pathPairs_cons_cons, ← List.cons_append, ih,
        pathPairs_cons_cons]
      simp

/-- The edges of a reversed path are the swapped edges in reverse order. -/
theorem pathPairs_reverse (m : List Pt) :
    pathPairs m.reverse = ((pathPairs m).map Prod.swap).reverse := by
  induction m with
  | nil => simp [pathPairs]
  | cons a m' ih =>
    cases m' with
    | nil => simp [pathPairs]
    | cons y m'' =>
      rw [List.reverse_cons, pathPairs_append_single, ih, pathPairs_cons_cons,
        List.map_cons, List.reverse_cons, List.reverse_cons,
        List.getLast?_concat]
      simp [Prod.swap]

/-- The cyclic edge list of a reversed ring is a permutation of the swapped
cyclic edge list of the ring. -/
theorem ringEdges_reverse_perm (l : List Pt) :
    List.Perm (ringEdges l.reverse) ((ringEdges l).map Prod.swap) := by
  cases l with
  | nil => simp [ringEdges, prependLast, pathPairs]
  | cons x u =>
    obtain ⟨y, hy, hlast⟩ := prependLast_cons_getLast x u
    have hrev : prependLast ((x :: u).reverse) = x :: (x :: u).reverse := by
      simp [prependLast, List.reverse_reverse]
    have h2 : (x : Pt) :: (x :: u).reverse = ((x :: u) ++ [x]).reverse := by
      simp
    rw [ringEdges, ringEdges, hy, hrev, h2, pathPairs_reverse,
      pathPairs_append_single, hlast, pathPairs_cons_cons]
    simp only [Option.map_some, Option.toList_some, List.map_append,
      List.map_cons, List.map_nil, Prod.swap_prod_mk]
    refine (List.reverse_perm _).trans ?_
    exact List.perm_append_singleton _ _

/-- The on-segment test does not depend on the direction of the edge. -/
theorem onSegB_swap (p s e : Pt) : onSegB p e s = onSegB p s e := by
  have hcol : decide ((s.1 - e.1) * (p.2 - e.2) = (s.2 - e.2) * (p.1 - e.1)) =
      decide ((e.1 - s.1) * (p.2 - s.2) = (e.2 - s.2) * (p.1 - s.1)) := by
    apply decide_eq_decide.mpr
    constructor <;> intro h <;> linear_combination -h
  rw [onSegB, onSegB, hcol, min_comm e.1 s.1, max_comm e.1 s.1,
    min_comm e.2 s.2, max_comm e.2 s.2]

/-- The ray-crossing test does not depend on the direction of the edge. -/
theorem crossB_swap (p s e : Pt) : crossB p e s = crossB p s e := by
  rw [crossB, crossB]
  by_cases hs : s.2 ≤ p.2 <;> by_cases he : e.2 ≤ p.2
  · simp [hs, he]
  · have hne : s.2 - e.2 ≠ 0 := by
      intro h0
      exact he (by linarith [sub_eq_zero.mp h0])
    have hne2 : e.2 - s.2 ≠ 0 := fun h0 => hne (by linarith [sub_eq_zero.mp h0])
    have hx : e.1 + (p.2 - e.2) * (s.1 - e.1) / (s.2 - e.2) =
        s.1 + (p.2 - s.2) * (e.1 - s.1) / (e.2 - s.2) := by
      field_simp
      ring
    rw [hx]
    simp [hs, he]
  · have hne : s.2 - e.2 ≠ 0 := by
      intro h0
      exact hs (by linarith [sub_eq_zero.mp h0])
    have hne2 : e.2 - s.2 ≠ 0 := fun h0 => hne (by linarith [sub_eq_zero.mp h0])
    have hx : e.1 + (p.2 - e.2) * (s.1 - e.1) / (s.2 - e.2) =
        s.1 + (p.2 - s.2) * (e.1 - s.1) / (e.2 - s.2) := by
      field_simp
      ring
    rw [hx]
    simp [hs, he]
  · simp [hs, he]

/-- `any` is invariant under permutation of the list. -/
theorem any_perm_eq (l1 l2 : List (Pt × Pt)) (h : List.Perm l1 l2)
    (f : Pt × Pt → Bool) : l1.any f = l2.any f := by
  apply Bool.eq_iff_iff.mpr
  rw [List.any_eq_true, List.any_eq_true]
  constructor
  · rintro ⟨x, hx, hfx⟩
    exact ⟨x, h.mem_iff.mp hx, hfx⟩
  · rintro ⟨x, hx, hfx⟩
    exact ⟨x, h.mem_iff.mpr hx, hfx⟩

/-- The covered-by test is invariant under reversing the ring's vertex
list. -/
theorem pointInRing_reverse (p : Pt) (l : List Pt) :
    pointInRing p l.reverse = pointInRing p l := by
  have hperm := ringEdges_reverse_perm l
  have honf : ((fun se : Pt × Pt => onSegB p se.1 se.2) ∘ Prod.swap) =
      fun se : Pt × Pt => onSegB p se.1 se.2 := by
    funext se
    exact onSegB_swap p se.1 se.2
  have hcrf : ((fun se : Pt × Pt => crossB p se.1 se.2) ∘ Prod.swap) =
      fun se : Pt × Pt => crossB p se.1 se.2 := by
    funext se
    exact crossB_swap p se.1 se.2
  rw [pointInRing, pointInRing]
  have h1 : (ringEdges l.reverse).any (fun se => onSegB p se.1 se.2) =
      (ringEdges l).any (fun se => onSegB p se.1 se.2) := by
    rw [any_perm_eq _ _ hperm, List.any_map, honf]
  have h2 : (ringEdges l.reverse).countP (fun se => crossB p se.1 se.2) =
      (ringEdges l).countP (fun se => crossB p se.1 se.2) := by
    rw [hperm.countP_eq, List.countP_map, hcrf]
  rw [h1, h2]

/-- The strict-interior test is invariant under reversing the ring's vertex
list. -/
theorem strictInRing_reverse (p : Pt) (l : List Pt) :
    strictInRing p l.reverse = strictInRing p l := by
  have hperm := ringEdges_reverse_perm l
  have honf : ((fun se : Pt × Pt => onSegB p se.1 se.2) ∘ Prod.swap) =
      fun se : Pt × Pt => onSegB p se.1 se.2 := by
    funext se
    exact onSegB_swap p se.1 se.2
  have hcrf : ((fun se : Pt × Pt => crossB p se.1 se.2) ∘ Prod.swap) =
      fun se : Pt × Pt => crossB p se.1 se.2 := by
    funext se
    exact crossB_swap p se.1 se.2
  rw [strictInRing, strictInRing]
  have h1 : (ringEdges l.reverse).any (fun se => onSegB p se.1 se.2) =
      (ringEdges l).any (fun se => onSegB p se.1 se.2) := by
    rw [any_perm_eq _ _ hperm, List.any_map, honf]
  have h2 : (ringEdges l.reverse).countP (fun se => crossB p se.1 se.2) =
      (ringEdges l).countP (fun se => crossB p se.1 se.2) := by
    rw [hperm.countP_eq, List.countP_map, hcrf]
  rw [h1, h2]

/-- C10: point_in_fence gives the same result on a fence of at least 3
vertices and on the same fence with its vertex list reversed: the
orientation correction together with the direction-independence of the
point tests makes the result invariant. -/
theorem C10_reverse_fence (f : List Pt) (p : Pt) (h : 3 ≤ f.length) :
    point_in_fence p f.reverse = point_in_fence p f := by
  have hlen : ¬ (f.reverse.length < 3) := by rw [List.length_reverse]; omega
  have hlen2 : ¬ (f.length < 3) := by omega
  rw [point_in_fence, point_in_fence, fence2polygon, fence2polygon,
    if_neg hlen, if_neg hlen2, correctRing, correctRing]
  split_ifs <;> simp only [List.reverse_reverse, pointInRing_reverse]

/-- C10 witness: the triangle (0,0),(4,0),(0,3) and its reversal classify
the point (1,1) the same way. -/
theorem C10_reverse_fence_witness :
    point_in_fence (1, 1) ([((0 : ℚ), (0 : ℚ)), (4, 0), (0, 3)].reverse) =
      point_in_fence (1, 1) [((0 : ℚ), (0 : ℚ)), (4, 0), (0, 3)] :=
  C10_reverse_fence [((0 : ℚ), (0 : ℚ)), (4, 0), (0, 3)] (1, 1) (by decide)

/-- The cyclic edges of the four-corner ring. -/
theorem ringEdges_rect (a b c d : ℚ) :
    ringEdges (rectRing a b c d) =
      [((a, d), (a, c)), ((a, c), (b, c)), ((b, c), (b, d)), ((b, d), (a, d))] := by
  simp [ringEdges, prependLast, rectRing, pathPairs]

/-- The signed area of the four-corner ring. -/
theorem signedArea_rect (a b c d : ℚ) :
    signedArea (rectRing a b c d) = (b - a) * (d - c) := by
  rw [signedArea, ringEdges_rect]
  simp [cross2]
  ring

/-- The area of a well-ordered four-corner ring. -/
theorem polyArea_rect (a b c d : ℚ) (hab : a ≤ b) (hcd : c ≤ d) :
    polyArea (rectRing a b c d) = (b - a) * (d - c) := by
  rw [polyArea, signedArea_rect,
    abs_of_nonneg (mul_nonneg (by linarith) (by linarith))]

/-- The empty ring has area 0. -/
theorem polyArea_nil : polyArea ([] : List Pt) = 0 := by
  simp [polyArea, signedArea, ringEdges, prependLast, pathPairs]

/-- For a well-ordered box the orientation correction keeps the corner
ring. -/
theorem box2polygon_eq_rect (b : Box) (h1 : b.left ≤ b.right)
    (h2 : b.top ≤ b.bottom) :
    box2polygon b = rectRing b.left b.right b.top b.bottom := by
  rw [box2polygon, correctRing, if_neg]
  rw [signedArea_rect]
  exact not_lt.mpr (mul_nonneg (by linarith) (by linarith))

/-- Clipping an empty ring gives an empty ring. -/
theorem clipXGE_nil (m : ℚ) : clipXGE m [] = [] := rfl

/-- Clipping an empty ring gives an empty ring. -/
theorem clipXLE_nil (m : ℚ) : clipXLE m [] = [] := rfl

/-- Clipping an empty ring gives an empty ring. -/
theorem clipYGE_nil (m : ℚ) : clipYGE m [] = [] := rfl

/-- Clipping an empty ring gives an empty ring. -/
theorem clipYLE_nil (m : ℚ) : clipYLE m [] = [] := rfl

/-- Clipping the four-corner ring by x ≥ m. -/
theorem clipXGE_rect (m a b c d : ℚ) (hab : a ≤ b) :
    clipXGE m (rectRing a b c d) =
      if m ≤ b then rectRing (max a m) b c d else [] := by
  rw [clipXGE, ringEdges_rect]
  rcases le_or_lt m a with h1 | h1
  · have h2 : m ≤ b := le_trans h1 hab
    rw [if_pos h2]
    simp [h1, h2, rectRing, max_eq_left h1]
  · have h1n : ¬ (m ≤ a) := not_le.mpr h1
    rcases le_or_lt m b with h2 | h2
    · rw [if_pos h2]
      simp [h1n, h2, rectRing, interX, max_eq_right h1.le]
    · have h2n : ¬ (m ≤ b) := not_le.mpr h2
      rw [if_neg h2n]
      simp [h1n, h2n]

/-- Clipping the four-corner ring by x ≤ m. -/
theorem clipXLE_rect (m a b c d : ℚ) (hab : a ≤ b) :
    clipXLE m (rectRing a b c d) =
      if a ≤ m then rectRing a (min b m) c d else [] := by
  rw [clipXLE, ringEdges_rect]
  rcases le_or_lt b m with h1 | h1
  · have h2 : a ≤ m := le_trans hab h1
    rw [if_pos h2]
    simp [h1, h2, rectRing, min_eq_left h1]
  · have h1n : ¬ (b ≤ m) := not_le.mpr h1
    rcases le_or_lt a m with h2 | h2
    · rw [if_pos h2]
      simp [h1n, h2, rectRing, interX, min_eq_right h1.le]
    · have h2n : ¬ (a ≤ m) := not_le.mpr h2
      rw [if_neg h2n]
      simp [h1n, h2n]

/-- Clipping the four-corner ring by y ≥ m. -/
theorem clipYGE_rect (m a b c d : ℚ) (hcd : c ≤ d) :
    clipYGE m (rectRing a b c d) =
      if m ≤ d then rectRing a b (max c m) d else [] := by
  rw [clipYGE, ringEdges_rect]
  rcases le_or_lt m c with h1 | h1
  · have h2 : m ≤ d := le_trans h1 hcd
    rw [if_pos h2]
    simp [h1, h2, rectRing, max_eq_left h1]
  · have h1n : ¬ (m ≤ c) := not_le.mpr h1
    rcases le_or_lt m d with h2 | h2
    · rw [if_pos h2]
      simp [h1n, h2, rectRing, interY, max_eq_right h1.le]
    · have h2n : ¬ (m ≤ d) := not_le.mpr h2
      rw [if_neg h2n]
      simp [h1n, h2n]

/-- Clipping the four-corner ring by y ≤ m: when the clip cuts, the result is
the cut rectangle's ring listed from another corner. -/
theorem clipYLE_rect (m a b c d : ℚ) (hcd : c ≤ d) :
    clipYLE m (rectRing a b c d) =
      if d ≤ m then rectRing a b c d
      else if c ≤ m then [(a, m), (a, c), (b, c), (b, m)] else [] := by
  rw [clipYLE, ringEdges_rect]
  rcases le_or_lt d m with h1 | h1
  · rw [if_pos h1]
    have h2 : c ≤ m := le_trans hcd h1
    simp [h1, h2, rectRing]
  · have h1n : ¬ (d ≤ m) := not_le.mpr h1
    rw [if_neg h1n]
    rcases le_or_lt c m with h2 | h2
    · rw [if_pos h2]
      simp [h1n, h2, rectRing, interY]
    · have h2n : ¬ (c ≤ m) := not_le.mpr h2
      rw [if_neg h2n]
      simp [h1n, h2n]

/-- The signed area of the cut rectangle's ring produced by clipYLE. -/
theorem signedArea_cutQuad (a b c m : ℚ) :
    signedArea [((a : ℚ), m), (a, c), (b, c), (b, m)] = (b - a) * (m - c) := by
  simp [signedArea, ringEdges, prependLast, pathPairs, cross2]
  ring

/-- The area of the cut rectangle's ring produced by clipYLE. -/
theorem polyArea_cutQuad (a b c m : ℚ) (hab : a ≤ b) (hcm : c ≤ m) :
    polyArea [((a : ℚ), m), (a, c), (b, c), (b, m)] = (b - a) * (m - c) := by
  rw [polyArea, signedArea_cutQuad,
    abs_of_nonneg (mul_nonneg (by linarith) (by linarith))]

/-- C6: for non-degenerate boxes, the analytic box-box path agrees exactly
with the general polygon path: intersection_box_area equals the area of the
polygon-clipping boolean intersection of the two box polygons, and box_area
equals the polygon area of box2polygon. -/
theorem C6_box_polygon_consistency (b1 b2 : Box)
    (h1 : b1.left < b1.right) (h2 : b1.top < b1.bottom)
    (h3 : b2.left < b2.right) (h4 : b2.top < b2.bottom) :
    intersection_box_area b1 b2 = polyArea (boxClip b1 (box2polygon b2)) ∧
    box_area b1 = polyArea (box2polygon b1) := by
  constructor
  · rw [box2polygon_eq_rect b2 h3.le h4.le, boxClip,
      min_eq_left h1.le, max_eq_right h1.le, min_eq_left h2.le,
      max_eq_right h2.le, clipXGE_rect b1.left _ _ _ _ h3.le]
    rcases le_or_lt b1.left b2.right with hA | hA
    · rw [if_pos hA]
      have hab2 : max b2.left b1.left ≤ b2.right := max_le h3.le hA
      rw [clipXLE_rect b1.right _ _ _ _ hab2]
      rcases le_or_lt (max b2.left b1.left) b1.right with hB | hB
      · rw [if_pos hB]
        have hAB : max b2.left b1.left ≤ min b2.right b1.right := le_min hab2 hB
        rw [clipYGE_rect b1.top _ _ _ _ h4.le]
        rcases le_or_lt b1.top b2.bottom with hC | hC
        · rw [if_pos hC]
          have hcd2 : max b2.top b1.top ≤ b2.bottom := max_le h4.le hC
          rw [clipYLE_rect b1.bottom _ _ _ _ hcd2]
          rcases le_or_lt b2.bottom b1.bottom with hD | hD
          · rw [if_pos hD, polyArea_rect _ _ _ _ hAB hcd2]
            show max 0 (min b1.right b2.right - max b1.left b2.left) *
              max 0 (min b1.bottom b2.bottom - max b1.top b2.top) = _
            rw [min_comm b1.right b2.right, max_comm b1.left b2.left,
              min_comm b1.bottom b2.bottom, max_comm b1.top b2.top,
              min_eq_left hD,
              max_eq_right (by linarith [hAB] : (0 : ℚ) ≤
                min b2.right b1.right - max b2.left b1.left),
              max_eq_right (by linarith [hcd2] : (0 : ℚ) ≤
                b2.bottom - max b2.top b1.top)]
          · rw [if_neg (not_le.mpr hD)]
            rcases le_or_lt (max b2.top b1.top) b1.bottom with hE | hE
            · rw [if_pos hE, polyArea_cutQuad _ _ _ _ hAB hE]
              show max 0 (min b1.right b2.right - max b1.left b2.left) *
                max 0 (min b1.bottom b2.bottom - max b1.top b2.top) = _
              rw [min_comm b1.right b2.right, max_comm b1.left b2.left,
                min_comm b1.bottom b2.bottom, max_comm b1.top b2.top,
                min_eq_right hD.le,
                max_eq_right (by linarith [hAB] : (0 : ℚ) ≤
                  min b2.right b1.right - max b2.left b1.left),
                max_eq_right (by linarith [hE] : (0 : ℚ) ≤
                  b1.bottom - max b2.top b1.top)]
            · rw [if_neg (not_le.mpr hE), polyArea_nil]
              show max 0 (min b1.right b2.right - max b1.left b2.left) *
                max 0 (min b1.bottom b2.bottom - max b1.top b2.top) = 0
              have hy : min b1.bottom b2.bottom - max b1.top b2.top ≤ 0 := by
                have ha := min_le_left b1.bottom b2.bottom
                rw [max_comm b1.top b2.top]
                linarith
              rw [max_eq_left hy, mul_zero]
        · rw [if_neg (not_le.mpr hC), clipYLE_nil, polyArea_nil]
          show max 0 (min b1.right b2.right - max b1.left b2.left) *
            max 0 (min b1.bottom b2.bottom - max b1.top b2.top) = 0
          have hy : min b1.bottom b2.bottom - max b1.top b2.top ≤ 0 := by
            have ha := min_le_right b1.bottom b2.bottom
            have hb := le_max_left b1.top b2.top
            linarith
          rw [max_eq_left hy, mul_zero]
      · rw [if_neg (not_le.mpr hB), clipYGE_nil, clipYLE_nil, polyArea_nil]
        show max 0 (min b1.right b2.right - max b1.left b2.left) *
          max 0 (min b1.bottom b2.bottom - max b1.top b2.top) = 0
        have hx : min b1.right b2.right - max b1.left b2.left ≤ 0 := by
          have ha := min_le_left b1.right b2.right
          rw [max_comm b1.left b2.left]
          linarith
        rw [max_eq_left hx, zero_mul]
    · rw [if_neg (not_le.mpr hA), clipXLE_nil, clipYGE_nil, clipYLE_nil,
        polyArea_nil]
      show max 0 (min b1.right b2.right - max b1.left b2.left) *
        max 0 (min b1.bottom b2.bottom - max b1.top b2.top) = 0
      have hx : min b1.right b2.right - max b1.left b2.left ≤ 0 := by
        have ha := min_le_right b1.right b2.right
        have hb := le_max_left b1.left b2.left
        linarith
      rw [max_eq_left hx, zero_mul]
  · rw [box2polygon_eq_rect b1 h1.le h2.le,
      polyArea_rect _ _ _ _ h1.le h2.le, box_area]

/-- C6 witness: for boxes (0,0,2,2) and (1,1,3,3) the analytic intersection
area equals the clipped polygon area and the analytic box area equals the
polygon area. -/
theorem C6_box_polygon_consistency_witness :
    intersection_box_area ⟨0, 0, 2, 2⟩ ⟨1, 1, 3, 3⟩ =
      polyArea (boxClip ⟨0, 0, 2, 2⟩ (box2polygon ⟨1, 1, 3, 3⟩)) ∧
    box_area ⟨0, 0, 2, 2⟩ = polyArea (box2polygon ⟨0, 0, 2, 2⟩) :=
  C6_box_polygon_consistency ⟨0, 0, 2, 2⟩ ⟨1, 1, 3, 3⟩
    (by norm_num) (by norm_num) (by norm_num) (by norm_num)

/-- Model faithfulness: on the four-corner ring the boundary-inclusive
even-odd test is exactly closed-rectangle membership, so the region of a
box polygon is the axis-aligned rectangle the clipping model uses. -/
theorem pointInRing_rect (p : Pt) (a b c d : ℚ) (hab : a < b) (hcd : c < d) :
    pointInRing p (rectRing a b c d) =
      (decide (a ≤ p.1) && decide (p.1 ≤ b) && decide (c ≤ p.2) && decide (p.2 ≤ d)) := by
  rw [pointInRing, ringEdges_rect]
  rcases lt_or_le p.2 c with hyc | hyc
  · -- below the rectangle: everything is false
    have hyc2 : ¬ (c ≤ p.2) := not_le.mpr hyc
    have hyc3 : ¬ (d ≤ p.2) := not_le.mpr (lt_trans hyc hcd)
    have hmin1 : min d c = c := min_eq_right hcd.le
    have hmin2 : min c c = c := min_self c
    have hmin3 : min c d = c := min_eq_left hcd.le
    have hmin4 : min d d = d := min_self d
    simp [onSegB, crossB, hmin1, hmin2, hmin3, hmin4, hyc2, hyc3,
      not_le.mpr (lt_trans hyc hcd)]
  rcases lt_or_le d p.2 with hyd | hyd
  · -- above the rectangle: everything is false
    have hyd2 : ¬ (p.2 ≤ d) := not_le.mpr hyd
    have h1 : c ≤ p.2 := le_trans hcd.le hyd.le
    have h2 : d ≤ p.2 := hyd.le
    have hmax1 : max d c = d := max_eq_left hcd.le
    have hmax2 : max c c = c := max_self c
    have hmax3 : max c d = d := max_eq_right hcd.le
    have hmax4 : max d d = d := max_self d
    have hcp : ¬ (p.2 ≤ c) := not_le.mpr (lt_of_le_of_lt hcd.le hyd)
    simp [onSegB, crossB, hmax1, hmax2, hmax3, hmax4, hyd2, h1, h2, hcp]
  · -- c ≤ p.2 ≤ d
    rcases lt_or_le p.1 a with hxa | hxa
    · -- left of the rectangle
      have hxa2 : ¬ (a ≤ p.1) := not_le.mpr hxa
      have hminx1 : min a a = a := min_self a
      have hminx2 : min a b = a := min_eq_left hab.le
      have hminx3 : min b b = b := min_self b
      have hminx4 : min b a = a := min_eq_right hab.le
      have hxb : ¬ (b ≤ p.1) := not_le.mpr (lt_trans hxa hab)
      rcases eq_or_lt_of_le hyd with hy | hy
      · -- p.2 = d: vertical edges do not change y-side, count 0
        have h2 : d ≤ p.2 := le_of_eq hy.symm
        have h1 : c ≤ p.2 := hyc
        simp [onSegB, crossB, hminx1, hminx2, hminx3, hminx4, hxa2, hxb,
          h1, h2]
      · -- c ≤ p.2 < d: both vertical edges cross, count 2
        have h2 : ¬ (d ≤ p.2) := not_le.mpr hy
        have h1 : c ≤ p.2 := hyc
        simp [onSegB, crossB, hminx1, hminx2, hminx3, hminx4, hxa2, hxb,
          h1, h2, hxa, lt_trans hxa hab, List.countP_cons]
    rcases lt_or_le b p.1 with hxb | hxb
    · -- right of the rectangle
      have hxb2 : ¬ (p.1 ≤ b) := not_le.mpr hxb
      have hmaxx1 : max a a = a := max_self a
      have hmaxx2 : max a b = b := max_eq_right hab.le
      have hmaxx3 : max b b = b := max_self b
      have hmaxx4 : max b a = b := max_eq_left hab.le
      have hpa : ¬ (p.1 < a) := not_lt.mpr (le_trans hab.le hxb.le)
      have hpb : ¬ (p.1 < b) := not_lt.mpr hxb.le
      have hpa2 : ¬ (p.1 ≤ a) := not_le.mpr (lt_of_le_of_lt hab.le hxb)
      simp [onSegB, crossB, hmaxx1, hmaxx2, hmaxx3, hmaxx4, hxb2, hpa, hpb,
        hpa2]
    · -- inside the closed rectangle: result is true
      have hra : a ≤ p.1 := hxa
      have hrb : p.1 ≤ b := hxb
      have hrc : c ≤ p.2 := hyc
      have hrd : p.2 ≤ d := hyd
      simp only [hra, hrb, hrc, hrd, decide_True, Bool.and_self, Bool.and_true]
      apply Bool.or_eq_true_iff.mpr
      rcases eq_or_lt_of_le hra with he | he
      · -- p.1 = a: on the left edge
        left
        apply List.any_eq_true.mpr
        refine ⟨((a, d), (a, c)), by simp, ?_⟩
        simp [onSegB, ← he, hrc, hrd, min_eq_right hcd.le, max_eq_left hcd.le]
      rcases eq_or_lt_of_le hrb with he2 | he2
      · -- p.1 = b: on the right edge
        left
        apply List.any_eq_true.mpr
        refine ⟨((b, c), (b, d)), by simp, ?_⟩
        simp [onSegB, he2, hrc, hrd, min_eq_left hcd.le, max_eq_right hcd.le]
      rcases eq_or_lt_of_le hrc with he3 | he3
      · -- p.2 = c: on the bottom edge
        left
        apply List.any_eq_true.mpr
        refine ⟨((a, c), (b, c)), by simp, ?_⟩
        simp [onSegB, ← he3, hra, hrb, min_eq_left hab.le, max_eq_right hab.le]
      rcases eq_or_lt_of_le hrd with he4 | he4
      · -- p.2 = d: on the top edge
        left
        apply List.any_eq_true.mpr
        refine ⟨((b, d), (a, d)), by simp, ?_⟩
        simp [onSegB, he4, hra, hrb, min_eq_right hab.le, max_eq_left hab.le]
      · -- strict interior: exactly the right edge crosses
        right
        have h1 : c ≤ p.2 := hrc
        have h2 : ¬ (d ≤ p.2) := not_le.mpr he4
        have h3 : ¬ (p.1 < a) := not_lt.mpr hra
        have h4 : p.1 < b := he2
        simp [crossB, h1, h2, h3, h4, List.countP_cons]

/-- Model faithfulness: covered_by(point, box2polygon(box)) coincides with
the analytic point_in_box check on every well-formed box, tying the polygon
path's point semantics to the analytic path. -/
theorem pointInRing_box2polygon (p : Pt) (b : Box)
    (h1 : b.left < b.right) (h2 : b.top < b.bottom) :
    pointInRing p (box2polygon b) = point_in_box p b := by
  rw [box2polygon_eq_rect b h1.le h2.le, pointInRing_rect p _ _ _ _ h1 h2,
    point_in_box]

/-- C1 (amended): box_in_fence is covered_by, that is boundary-inclusive
containment of every point of the box polygon — for a well-formed box,
containment of every point of the closed rectangle the box denotes;
mask_in_fence is within, that is boundary-inclusive containment of every
part plus a point interior to some part and to the fence — in particular a
mask with an empty polygon set is never contained, although every part of
it is vacuously contained. -/
theorem C1_contains_semantics (parts : List (List Pt)) (f : List Pt) (b : Box) :
    (box_in_fence b f ↔
      ∀ p : Pt, pointInRing p (box2polygon b) = true →
        pointInRing p (fence2polygon f) = true) ∧
    (b.left < b.right → b.top < b.bottom →
      (box_in_fence b f ↔
        ∀ p : Pt, point_in_box p b = true →
          pointInRing p (fence2polygon f) = true)) ∧
    (mask_in_fence parts f ↔
      ((∀ r ∈ parts, coveredByRing r (fence2polygon f)) ∧
       ∃ p : Pt, (∃ r ∈ parts, strictInRing p r = true) ∧
         strictInRing p (fence2polygon f) = true)) := by
  refine ⟨Iff.rfl, ?_, ?_⟩
  · intro h1 h2
    unfold box_in_fence coveredByRing
    constructor
    · intro h p hp
      exact h p (by rw [pointInRing_box2polygon p b h1 h2]; exact hp)
    · intro h p hp
      exact h p (by rw [← pointInRing_box2polygon p b h1 h2]; exact hp)
  · rw [mask_in_fence, withinMulti]
    constructor
    · rintro ⟨hcov, hint⟩
      exact ⟨fun r hr p hp => hcov p ⟨r, hr, hp⟩, hint⟩
    · rintro ⟨hcov, hint⟩
      exact ⟨fun p hp => by obtain ⟨r, hr, hpr⟩ := hp; exact hcov r hr p hpr,
        hint⟩

/-- The 50x50 square fence of the test suite converts to the corner ring of
the rectangle [0,50] x [0,50]. -/
theorem fence2polygon_sq50 :
    fence2polygon [(0, 0), (50, 0), (50, 50), (0, 50)] =
      rectRing 0 50 0 50 := by
  rw [fence2polygon, if_neg (by norm_num),
    show [((0 : ℚ), (0 : ℚ)), (50, 0), (50, 50), (0, 50)] =
      rectRing 0 50 0 50 from rfl, correctRing, if_neg]
  rw [signedArea_rect]
  norm_num

/-- Test scenario (tests.cpp BoxInFence, spec scenario 3): the box
(10,10,30,30) is contained in the 50x50 square fence. -/
theorem box_in_fence_inside_sq50 :
    box_in_fence ⟨10, 10, 30, 30⟩ [(0, 0), (50, 0), (50, 50), (0, 50)] := by
  intro p hp
  rw [pointInRing_box2polygon p ⟨10, 10, 30, 30⟩ (by norm_num) (by norm_num)]
    at hp
  simp only [point_in_box, Bool.and_eq_true, decide_eq_true_eq] at hp
  obtain ⟨⟨⟨h1, h2⟩, h3⟩, h4⟩ := hp
  rw [fence2polygon_sq50, pointInRing_rect p 0 50 0 50 (by norm_num)
    (by norm_num)]
  simp only [Bool.and_eq_true, decide_eq_true_eq]
  refine ⟨⟨⟨by linarith, by linarith⟩, by linarith⟩, by linarith⟩

/-- Test scenario (tests.cpp BoxInFence, spec scenario 2): the box
(40,40,60,60) only intersects the 50x50 square fence and is not
contained. -/
theorem box_in_fence_intersecting_sq50 :
    ¬ box_in_fence ⟨40, 40, 60, 60⟩ [(0, 0), (50, 0), (50, 50), (0, 50)] := by
  intro h
  have hmem : ((60 : ℚ), (60 : ℚ)) ∈ box2polygon ⟨40, 40, 60, 60⟩ := by
    rw [box2polygon_eq_rect ⟨40, 40, 60, 60⟩ (by norm_num) (by norm_num)]
    simp [rectRing]
  have hc := h (60, 60) (vertex_pointInRing _ _ hmem)
  rw [fence2polygon_sq50, pointInRing_rect _ 0 50 0 50 (by norm_num)
    (by norm_num)] at hc
  simp only [Bool.and_eq_true, decide_eq_true_eq] at hc
  linarith [hc.1.1.2]
